import Mathlib

/-!
# Verification of the BioMed-AI-Summer-School ML tutorial notebook

A shallow embedding of the computational cells of `ML/ml-tutorial.ipynb`:
the dataset index built from five glob lists, the (exercise) image
normalization routine `load_img_norm`, the `pivot_table` data preparation
with label encoding, the stratified train/test split, and the confusion
matrix labelling.  Voxel intensities and feature values are modelled as
exact rationals; the numpy standard deviation (a square root) is carried
as an explicit parameter constrained by `σ ^ 2 = variance` hypotheses.
-/

namespace MLTutorial

/-! ## Statistics over lists of rationals (numpy `mean` / `std`, ddof = 0) -/

/-- numpy `arr.mean()`: the sum divided by the number of elements
(`0 / 0 = 0` in Lean stands in for numpy's NaN on the empty array). -/
def mean (xs : List ℚ) : ℚ := xs.sum / xs.length

/-- numpy `arr.std() ** 2` (population variance, `ddof = 0`):
the mean of the squared deviations from the mean. -/
def variance (xs : List ℚ) : ℚ :=
  (xs.map (fun x => (x - mean xs) ^ 2)).sum / xs.length

/-- numpy boolean-mask selection `vol[vol > threshold]`:
the voxels strictly above the threshold, in volume order. -/
def maskAbove (vol : List ℚ) (t : ℚ) : List ℚ :=
  vol.filter (fun v => t < v)

/-! ## SimpleITK model: an image is spatial metadata plus a voxel array -/

/-- The spatial metadata a SimpleITK image carries besides its voxels. -/
structure Meta where
  size : List ℕ
  spacing : List ℚ
  origin : List ℚ
  direction : List ℚ
deriving DecidableEq, Repr, Inhabited

/-- A SimpleITK image: spatial metadata plus the voxel intensities
(the 3-D array flattened in index order). -/
structure SitkImage where
  meta : Meta
  voxels : List ℚ
deriving DecidableEq, Repr, Inhabited

/-- `sitk.GetArrayFromImage`: the voxel array of an image. -/
def GetArrayFromImage (img : SitkImage) : List ℚ := img.voxels

/-- `sitk.GetImageFromArray`: an image with default spatial metadata
around the given voxel array. -/
def GetImageFromArray (arr : List ℚ) : SitkImage :=
  { meta := default, voxels := arr }

/-- `a.CopyInformation(b)`: `a` with its spatial metadata replaced by
the metadata of `b`; the voxels of `a` are untouched. -/
def CopyInformation (a b : SitkImage) : SitkImage :=
  { a with meta := b.meta }

/-- The file system visible to `sitk.ReadImage`: a map from paths to the
images stored there. -/
def Store : Type := String → Option SitkImage

/-! ## The normalization exercise (`load_img_norm`) -/

/-- The pointwise z-score rescaling `(v - μ) / σ` applied to every voxel of
the volume, where `μ` is the mean over the voxels strictly above the
threshold and `σ` is the standard deviation over that same subset
(passed explicitly, constrained by `σ ^ 2 = variance (maskAbove vol t)`
in the theorems below). -/
def normalizeWith (vol : List ℚ) (t σ : ℚ) : List ℚ :=
  vol.map (fun v => (v - mean (maskAbove vol t)) / σ)

/-- Modelled from the spec: the body of `load_img_norm` is a blank exercise
stub in the notebook, so the intended solution is taken from the spec's
words — "load the volume, compute mean/standard deviation over voxels above
an intensity threshold and rescale the volume", returning "the normalized
sitk object and a numpy array", the sitk object taking its spatial metadata
from the loaded image via `CopyInformation`.  `σ` stands for the floating
point standard deviation; the file store is threaded through to record that
the function only reads it.  Reading a missing path fails (`none`). -/
def load_img_norm (store : Store) (image_dir : String) (σ : ℚ)
    (threshold : ℚ := 0) : Option ((SitkImage × List ℚ) × Store) :=
  match store image_dir with
  | none => none
  | some img =>
    let img_np := GetArrayFromImage img
    let normalized_np := normalizeWith img_np threshold σ
    let normalized_sitk := CopyInformation (GetImageFromArray normalized_np) img
    some ((normalized_sitk, normalized_np), store)

/-! ## Arithmetic lemmas about `mean` and `variance` -/

theorem sum_map_sub_const (xs : List ℚ) (c : ℚ) :
    (xs.map (fun x => x - c)).sum = xs.sum - xs.length * c := by
  induction xs with
  | nil => simp
  | cons a l ih => simp [ih]; ring

theorem mean_const (xs : List ℚ) (c : ℚ) (hne : xs ≠ [])
    (hc : ∀ x ∈ xs, x = c) : mean xs = c := by
  have hsum : xs.sum = xs.length * c := by
    induction xs with
    | nil => simp
    | cons a l ih =>
      have ha : a = c := hc a (List.mem_cons_self a l)
      by_cases hl : l = []
      · subst hl; simp [ha]
      · have := ih hl (fun x hx => hc x (List.mem_cons_of_mem a hx))
        simp [ha, this]; ring
  have hlen : (xs.length : ℚ) ≠ 0 :=
    Nat.cast_ne_zero.mpr (Nat.pos_iff_ne_zero.mp (List.length_pos.mpr hne))
  rw [mean, hsum, mul_comm, mul_div_assoc, div_self hlen, mul_one]

theorem sum_sq_eq_zero_iff (xs : List ℚ) (c : ℚ) :
    (xs.map (fun x => (x - c) ^ 2)).sum = 0 ↔ ∀ x ∈ xs, x = c := by
  induction xs with
  | nil => simp
  | cons a l ih =>
    simp only [List.map_cons, List.sum_cons, List.mem_cons]
    constructor
    · intro h
      have h1 : (0 : ℚ) ≤ (a - c) ^ 2 := sq_nonneg _
      have h2 : (0 : ℚ) ≤ (l.map (fun x => (x - c) ^ 2)).sum :=
        List.sum_nonneg (by
          intro x hx
          obtain ⟨y, _, rfl⟩ := List.mem_map.mp hx
          exact sq_nonneg _)
      have hz := (add_eq_zero_iff_of_nonneg h1 h2).mp h
      refine fun x hx => ?_
      rcases hx with rfl | hx
      · have := pow_eq_zero_iff (n := 2) (by norm_num) |>.mp hz.1
        linarith [sub_eq_zero.mp this]
      · exact ih.mp hz.2 x hx
    · intro h
      have ha : a - c = 0 := sub_eq_zero.mpr (h a (Or.inl rfl))
      have hl : (l.map (fun x => (x - c) ^ 2)).sum = 0 :=
        ih.mpr (fun x hx => h x (Or.inr hx))
      simp [ha, hl]

/-- The variance of a list vanishes exactly when the list is empty or all of
its elements coincide. -/
theorem variance_eq_zero_iff (xs : List ℚ) :
    variance xs = 0 ↔ (xs = [] ∨ ∀ x ∈ xs, ∀ y ∈ xs, x = y) := by
  by_cases hne : xs = []
  · subst hne; simp [variance, mean]
  · have hlen : (xs.length : ℚ) ≠ 0 :=
      Nat.cast_ne_zero.mpr (Nat.pos_iff_ne_zero.mp (List.length_pos.mpr hne))
    rw [variance, div_eq_zero_iff]
    constructor
    · rintro (h | h)
      · right
        have hall := (sum_sq_eq_zero_iff xs (mean xs)).mp h
        intro x hx y hy
        rw [hall x hx, hall y hy]
      · exact absurd h hlen
    · rintro (h | h)
      · exact absurd h hne
      · left
        obtain ⟨a, ha⟩ := List.exists_mem_of_ne_nil xs hne
        have hc : ∀ x ∈ xs, x = a := fun x hx => h x hx a ha
        have hm : mean xs = a := mean_const xs a hne hc
        exact (sum_sq_eq_zero_iff xs (mean xs)).mpr
          (fun x hx => by rw [hc x hx, hm])

theorem variance_nonneg (xs : List ℚ) : 0 ≤ variance xs := by
  apply div_nonneg
  · exact List.sum_nonneg (by
      intro x hx
      obtain ⟨y, _, rfl⟩ := List.mem_map.mp hx
      exact sq_nonneg _)
  · exact_mod_cast Nat.zero_le _

theorem sum_map_div_const (xs : List ℚ) (f : ℚ → ℚ) (c : ℚ) :
    (xs.map (fun x => f x / c)).sum = (xs.map f).sum / c := by
  induction xs with
  | nil => simp
  | cons a l ih => simp [ih, add_div]

theorem sum_sub_mean (xs : List ℚ) (hne : xs ≠ []) :
    (xs.map (fun x => x - mean xs)).sum = 0 := by
  have hlen : (xs.length : ℚ) ≠ 0 :=
    Nat.cast_ne_zero.mpr (Nat.pos_iff_ne_zero.mp (List.length_pos.mpr hne))
  rw [sum_map_sub_const, mean]
  field_simp

theorem mean_normalized (ms : List ℚ) (σ : ℚ) (hne : ms ≠ []) :
    mean (ms.map (fun x => (x - mean ms) / σ)) = 0 := by
  have h1 : (ms.map (fun x => (x - mean ms) / σ)).sum
      = (ms.map (fun x => x - mean ms)).sum / σ :=
    sum_map_div_const ms (fun x => x - mean ms) σ
  rw [mean, h1, sum_sub_mean ms hne, zero_div, zero_div]

theorem variance_normalized (ms : List ℚ) (σ : ℚ) (hne : ms ≠ []) (hσ : σ ≠ 0)
    (hsq : σ ^ 2 = variance ms) :
    variance (ms.map (fun x => (x - mean ms) / σ)) = 1 := by
  have hlen : (ms.length : ℚ) ≠ 0 :=
    Nat.cast_ne_zero.mpr (Nat.pos_iff_ne_zero.mp (List.length_pos.mpr hne))
  have hmean0 := mean_normalized ms σ hne
  rw [variance, hmean0, List.map_map]
  have hcomp : ((fun y => (y - 0) ^ 2) ∘ (fun x => (x - mean ms) / σ))
      = fun x => ((x - mean ms) ^ 2) / σ ^ 2 := by
    funext x
    simp [Function.comp, div_pow]
  rw [hcomp]
  have h2 : (ms.map (fun x => ((x - mean ms) ^ 2) / σ ^ 2)).sum
      = (ms.map (fun x => (x - mean ms) ^ 2)).sum / σ ^ 2 :=
    sum_map_div_const ms (fun x => (x - mean ms) ^ 2) (σ ^ 2)
  rw [List.length_map, h2]
  have hvar : (ms.map (fun x => (x - mean ms) ^ 2)).sum = σ ^ 2 * ms.length := by
    have hv : variance ms = (ms.map (fun x => (x - mean ms) ^ 2)).sum / ms.length := rfl
    rw [hsq, hv]
    field_simp
  rw [hvar]
  have hσ2 : (σ : ℚ) ^ 2 ≠ 0 := pow_ne_zero 2 hσ
  field_simp

theorem getD_map_lt (l : List ℚ) (f : ℚ → ℚ) (i : ℕ) (h : i < l.length) :
    (l.map f).getD i 0 = f (l.getD i 0) := by
  induction l generalizing i with
  | nil => simp at h
  | cons a tl ih =>
    cases i with
    | zero => simp
    | succ n =>
      simp only [List.map_cons, List.getD_cons_succ]
      exact ih n (by simpa using Nat.lt_of_succ_lt_succ h)

/-- Selecting from a second list the entries at the positions where the
first list is strictly above the threshold (the normalized values of the
voxels that were above the threshold in the original volume). -/
def selectAbove (vol nrm : List ℚ) (t : ℚ) : List ℚ :=
  (vol.zip nrm).filterMap (fun p => if t < p.1 then some p.2 else none)

theorem selectAbove_map (vol : List ℚ) (g : ℚ → ℚ) (t : ℚ) :
    selectAbove vol (vol.map g) t = (vol.filter (fun v => t < v)).map g := by
  induction vol with
  | nil => rfl
  | cons a l ih =>
    by_cases h : t < a
    · have hstep : selectAbove (a :: l) ((a :: l).map g) t
          = g a :: selectAbove l (l.map g) t := by
        simp [selectAbove, h]
      rw [hstep, ih]
      simp [h]
    · have hstep : selectAbove (a :: l) ((a :: l).map g) t
          = selectAbove l (l.map g) t := by
        simp [selectAbove, h]
      rw [hstep, ih]
      simp [h]

/-! ## Claim theorems for the normalization exercise -/

/-- C1: for every image file path and threshold, `load_img_norm` loads the
volume, computes mean and standard deviation only over the voxels strictly
above the threshold (threshold defaulting to 0), and returns the volume with
every voxel `v` rescaled to `(v - mean) / std`, as a pair of a normalized
SimpleITK object and a numpy array of the same shape as the input volume. -/
theorem load_img_norm_correct (store : Store) (dir : String)
    (img : SitkImage) (σ t : ℚ) (h : store dir = some img)
    (hσ : 0 ≤ σ) (hsq : σ ^ 2 = variance (maskAbove img.voxels t)) :
    ∃ nimg arr store2,
      load_img_norm store dir σ t = some ((nimg, arr), store2) ∧
      arr.length = img.voxels.length ∧
      (∀ i, i < img.voxels.length →
        arr.getD i 0
          = (img.voxels.getD i 0 - mean (maskAbove img.voxels t)) / σ) ∧
      nimg.voxels = arr ∧
      load_img_norm store dir σ = load_img_norm store dir σ 0 := by
  refine ⟨CopyInformation
      (GetImageFromArray (normalizeWith img.voxels t σ)) img,
    normalizeWith img.voxels t σ, store, ?_, ?_, ?_, rfl, rfl⟩
  · simp [load_img_norm, h, GetArrayFromImage]
  · simp [normalizeWith]
  · intro i hi
    exact getD_map_lt img.voxels _ i hi

/-- C1 witness: a store holding one two-voxel image; with threshold 0 the
masked voxels are `[1, 3]`, whose variance is `1`, so `σ = 1`. -/
theorem load_img_norm_correct_witness :
    ∃ nimg arr store2,
      load_img_norm
          (fun d => if d = "a.nii.gz"
            then some ⟨default, [(1 : ℚ), 3, -5]⟩ else none)
          "a.nii.gz" 1 0 = some ((nimg, arr), store2) ∧
      arr.length = (3 : ℕ) ∧ arr.getD 0 0 = -1 := by
  have h := load_img_norm_correct
    (fun d => if d = "a.nii.gz"
      then some ⟨default, [(1 : ℚ), 3, -5]⟩ else none)
    "a.nii.gz" ⟨default, [(1 : ℚ), 3, -5]⟩ 1 0
    (by simp) (by norm_num)
    (by
      show (1 : ℚ) ^ 2 = variance (maskAbove [(1 : ℚ), 3, -5] 0)
      norm_num [variance, maskAbove, mean, List.filter])
  obtain ⟨nimg, arr, store2, h1, h2, h3, h4, h5⟩ := h
  refine ⟨nimg, arr, store2, h1, by simpa using h2, ?_⟩
  have := h3 0 (by norm_num)
  rw [this]
  norm_num [maskAbove, mean, List.filter]

/-- C2: the normalization divides by zero exactly when the set of voxels
strictly above the threshold is empty or of constant intensity; with at
least two distinct intensities above the threshold the standard deviation
is nonzero and the normalization is well-defined. -/
theorem load_img_norm_divzero_iff (vol : List ℚ) (t σ : ℚ)
    (hσ : 0 ≤ σ) (hsq : σ ^ 2 = variance (maskAbove vol t)) :
    (σ = 0 ↔ (maskAbove vol t = [] ∨
      ∀ x ∈ maskAbove vol t, ∀ y ∈ maskAbove vol t, x = y)) ∧
    (∀ a ∈ maskAbove vol t, ∀ b ∈ maskAbove vol t, a ≠ b → σ ≠ 0) := by
  have hiff : σ = 0 ↔ variance (maskAbove vol t) = 0 := by
    constructor
    · intro h0
      rw [← hsq, h0]
      norm_num
    · intro h0
      have : σ ^ 2 = 0 := by rw [hsq, h0]
      exact pow_eq_zero_iff (n := 2) (by norm_num) |>.mp this
  constructor
  · exact hiff.trans (variance_eq_zero_iff (maskAbove vol t))
  · intro a ha b hb hab h0
    have := (hiff.trans (variance_eq_zero_iff (maskAbove vol t))).mp h0
    rcases this with hemp | hconst
    · rw [hemp] at ha
      exact absurd ha (List.not_mem_nil a)
    · exact hab (hconst a ha b hb)

/-- C2 witness: volume `[1, 3, -5]`, threshold 0, `σ = 1`: the mask holds
two distinct values, and indeed `σ ≠ 0`. -/
theorem load_img_norm_divzero_iff_witness :
    ((1 : ℚ) = 0 ↔ (maskAbove [(1 : ℚ), 3, -5] 0 = [] ∨
      ∀ x ∈ maskAbove [(1 : ℚ), 3, -5] 0,
        ∀ y ∈ maskAbove [(1 : ℚ), 3, -5] 0, x = y)) ∧
    (∀ a ∈ maskAbove [(1 : ℚ), 3, -5] 0,
      ∀ b ∈ maskAbove [(1 : ℚ), 3, -5] 0, a ≠ b → (1 : ℚ) ≠ 0) :=
  load_img_norm_divzero_iff [(1 : ℚ), 3, -5] 0 1 (by norm_num)
    (by norm_num [variance, maskAbove, mean, List.filter])

/-- C3: whenever the standard deviation over the thresholded subset is
nonzero, the normalized values of exactly the voxels that were strictly
above the threshold in the original volume have mean 0 and standard
deviation 1. -/
theorem load_img_norm_zscore (store : Store) (dir : String)
    (img : SitkImage) (σ t : ℚ) (h : store dir = some img)
    (hσ : 0 < σ) (hsq : σ ^ 2 = variance (maskAbove img.voxels t))
    (out : (SitkImage × List ℚ) × Store)
    (hout : load_img_norm store dir σ t = some out) :
    mean (selectAbove img.voxels out.1.2 t) = 0 ∧
    variance (selectAbove img.voxels out.1.2 t) = 1 := by
  have harr : out.1.2 = normalizeWith img.voxels t σ := by
    simp only [load_img_norm, h, GetArrayFromImage] at hout
    have hx := Option.some.inj hout
    subst hx
    rfl
  have hσ0 : σ ≠ 0 := ne_of_gt hσ
  have hvarpos : variance (maskAbove img.voxels t) ≠ 0 := by
    rw [← hsq]
    exact pow_ne_zero 2 hσ0
  have hne : maskAbove img.voxels t ≠ [] := by
    intro hemp
    exact hvarpos ((variance_eq_zero_iff _).mpr (Or.inl hemp))
  have hsel : selectAbove img.voxels out.1.2 t
      = (maskAbove img.voxels t).map
          (fun v => (v - mean (maskAbove img.voxels t)) / σ) := by
    rw [harr, normalizeWith]
    exact selectAbove_map img.voxels _ t
  rw [hsel]
  exact ⟨mean_normalized _ σ hne, variance_normalized _ σ hne hσ0 hsq⟩

/-- C3 witness: volume `[1, 3, -5]`, threshold 0, `σ = 1`: the normalized
above-threshold values are `[-1, 1]`, with mean 0 and variance 1. -/
theorem load_img_norm_zscore_witness :
    mean (selectAbove [(1 : ℚ), 3, -5]
      (normalizeWith [(1 : ℚ), 3, -5] 0 1) 0) = 0 ∧
    variance (selectAbove [(1 : ℚ), 3, -5]
      (normalizeWith [(1 : ℚ), 3, -5] 0 1) 0) = 1 :=
  load_img_norm_zscore
    (fun d => if d = "a.nii.gz"
      then some ⟨default, [(1 : ℚ), 3, -5]⟩ else none)
    "a.nii.gz" ⟨default, [(1 : ℚ), 3, -5]⟩ 1 0
    (by simp) (by norm_num)
    (by norm_num [variance, maskAbove, mean, List.filter])
    ((CopyInformation (GetImageFromArray
        (normalizeWith [(1 : ℚ), 3, -5] 0 1)) ⟨default, [(1 : ℚ), 3, -5]⟩,
      normalizeWith [(1 : ℚ), 3, -5] 0 1),
      (fun d => if d = "a.nii.gz"
        then some ⟨default, [(1 : ℚ), 3, -5]⟩ else none))
    rfl

/-! ## The shipped exercise stub (`load_img_norm` as it appears in the file)

The notebook ships `load_img_norm` with an empty body between the
`### START CODE HERE ###` markers and the line
`return normalized_sitk, normalized_np`.  Python resolves each returned
name against the local scope, which holds only the two parameters, so the
return raises `NameError`.  We model just enough of that name resolution. -/

/-- A Python runtime value, as far as this notebook needs them. -/
inductive PyVal where
  | str : String → PyVal
  | num : ℚ → PyVal
  | img : SitkImage → PyVal
  | arr : List ℚ → PyVal
  | tup : PyVal → PyVal → PyVal
deriving DecidableEq, Repr

/-- A Python exception, as far as this notebook needs them. -/
inductive PyError where
  | nameError (name : String)
deriving DecidableEq, Repr

/-- Python local-name resolution: look the name up among the bound locals;
an unbound name raises `NameError` naming it. -/
def lookupLocal (locals : List (String × PyVal)) (n : String) :
    Except PyError PyVal :=
  match locals with
  | [] => .error (.nameError n)
  | (k, v) :: rest => if k = n then .ok v else lookupLocal rest n

/-- The shipped `load_img_norm` stub, exactly as in the notebook: the body
binds only the two parameters (the exercise region is empty), then
evaluates `return normalized_sitk, normalized_np` in that scope. -/
def load_img_norm_shipped (image_dir : String) (threshold : ℚ) :
    Except PyError PyVal := do
  let locals : List (String × PyVal) :=
    [("image_dir", .str image_dir), ("threshold", .num threshold)]
  let normalized_sitk ← lookupLocal locals "normalized_sitk"
  let normalized_np ← lookupLocal locals "normalized_np"
  pure (.tup normalized_sitk normalized_np)

/-- C6: as shipped, the exercise stub fails on every input: the `return`
references `normalized_sitk`, never assigned in the empty body, so every
call raises `NameError` and none returns a value. -/
theorem load_img_norm_shipped_fails (image_dir : String) (threshold : ℚ) :
    load_img_norm_shipped image_dir threshold
      = .error (.nameError "normalized_sitk") ∧
    ∀ v, load_img_norm_shipped image_dir threshold ≠ .ok v := by
  constructor
  · rfl
  · intro v h
    rw [show load_img_norm_shipped image_dir threshold
        = .error (.nameError "normalized_sitk") from rfl] at h
    exact Except.noConfusion h

/-! ## The dataset index (`database = pd.DataFrame({...})`)

The notebook builds a DataFrame from the five sorted glob lists; pandas
raises `ValueError: All arrays must be of the same length` when the column
lists differ in length, and otherwise aligns them positionally. -/

/-- Positional alignment of the five columns: row `i` is the `i`-th entry
of each list. -/
def zip5 : List String → List String → List String → List String →
    List String → List (String × String × String × String × String)
  | a :: as, b :: bs, c :: cs, d :: ds, e :: es =>
      (a, b, c, d, e) :: zip5 as bs cs ds es
  | _, _, _, _, _ => []

/-- `pd.DataFrame({'T1': t1, 'T2': t2, 'T1ce': t1ce, 'FLAIR': flair,
'Seg': seg})`: succeeds exactly when the five columns share a length. -/
def mkDatabase (t1 t2 t1ce flair seg : List String) :
    Option (List (String × String × String × String × String)) :=
  if t1.length = t2.length ∧ t1.length = t1ce.length ∧
      t1.length = flair.length ∧ t1.length = seg.length
  then some (zip5 t1 t2 t1ce flair seg)
  else none

theorem zip5_length (t1 t2 t1ce flair seg : List String)
    (h2 : t1.length = t2.length) (h3 : t1.length = t1ce.length)
    (h4 : t1.length = flair.length) (h5 : t1.length = seg.length) :
    (zip5 t1 t2 t1ce flair seg).length = t1.length := by
  induction t1 generalizing t2 t1ce flair seg with
  | nil =>
    cases t2 <;> cases t1ce <;> cases flair <;> cases seg <;> rfl
  | cons a as ih =>
    cases t2 with
    | nil => simp at h2
    | cons b bs =>
      cases t1ce with
      | nil => simp at h3
      | cons c cs =>
        cases flair with
        | nil => simp at h4
        | cons d ds =>
          cases seg with
          | nil => simp at h5
          | cons e es =>
            simp only [zip5, List.length_cons, Nat.succ.injEq] at *
            exact ih bs cs ds es h2 h3 h4 h5

theorem zip5_getD (t1 t2 t1ce flair seg : List String)
    (h2 : t1.length = t2.length) (h3 : t1.length = t1ce.length)
    (h4 : t1.length = flair.length) (h5 : t1.length = seg.length)
    (i : ℕ) (hi : i < t1.length) :
    (zip5 t1 t2 t1ce flair seg).getD i ("", "", "", "", "")
      = (t1.getD i "", t2.getD i "", t1ce.getD i "", flair.getD i "",
          seg.getD i "") := by
  induction t1 generalizing t2 t1ce flair seg i with
  | nil => simp at hi
  | cons a as ih =>
    cases t2 with
    | nil => simp at h2
    | cons b bs =>
      cases t1ce with
      | nil => simp at h3
      | cons c cs =>
        cases flair with
        | nil => simp at h4
        | cons d ds =>
          cases seg with
          | nil => simp at h5
          | cons e es =>
            cases i with
            | zero => rfl
            | succ n =>
              simp only [List.length_cons, Nat.succ.injEq] at h2 h3 h4 h5
              simp only [zip5, List.getD_cons_succ]
              exact ih bs cs ds es h2 h3 h4 h5 n
                (by simpa using Nat.lt_of_succ_lt_succ hi)

/-- C8: constructing the dataset index from the five sorted glob lists
succeeds if and only if all five lists have the same length; on success
row `i` holds the `i`-th file of each modality in sorted path order (one
row per patient only if every patient contributes one file per modality). -/
theorem database_correct (t1 t2 t1ce flair seg : List String) :
    ((mkDatabase t1 t2 t1ce flair seg).isSome ↔
      (t1.length = t2.length ∧ t1.length = t1ce.length ∧
        t1.length = flair.length ∧ t1.length = seg.length)) ∧
    (∀ db, mkDatabase t1 t2 t1ce flair seg = some db →
      db.length = t1.length ∧
      ∀ i, i < t1.length →
        db.getD i ("", "", "", "", "")
          = (t1.getD i "", t2.getD i "", t1ce.getD i "", flair.getD i "",
              seg.getD i "")) := by
  constructor
  · unfold mkDatabase
    by_cases h : t1.length = t2.length ∧ t1.length = t1ce.length ∧
        t1.length = flair.length ∧ t1.length = seg.length
    · simp [h]
    · simp [h]
  · intro db hdb
    unfold mkDatabase at hdb
    by_cases h : t1.length = t2.length ∧ t1.length = t1ce.length ∧
        t1.length = flair.length ∧ t1.length = seg.length
    · rw [if_pos h] at hdb
      obtain ⟨h2, h3, h4, h5⟩ := h
      obtain rfl := Option.some.inj hdb.symm
      exact ⟨zip5_length t1 t2 t1ce flair seg h2 h3 h4 h5,
        fun i hi => zip5_getD t1 t2 t1ce flair seg h2 h3 h4 h5 i hi⟩
    · rw [if_neg h] at hdb
      exact Option.noConfusion hdb

/-! ## Data preparation (`pivot_table` and label encoding)

`data.pivot_table(index=['patient', 'label'], columns=['sequence'],
values=data.columns[3:])` groups the radiomics table by `(patient, label)`
and makes one column per `(feature, sequence)` pair, aggregating matching
rows with the default `aggfunc='mean'`; then the label column is rewritten
by `data.loc[data['label'] == 'HGG', 'label'] = 1` and
`data.loc[data['label'] == 'LGG', 'label'] = 0`. -/

/-- One row of `data/radiomics.csv`: a patient, its class label, the MRI
sequence, and the numeric radiomics features (columns 3 onward). -/
structure RadRow where
  patient : String
  label : String
  sequence : String
  feats : List ℚ
deriving DecidableEq, Repr

/-- The distinct values of the `sequence` column (the pivoted columns). -/
def sequences (rows : List RadRow) : List String :=
  (rows.map (fun r => r.sequence)).dedup

/-- The distinct `(patient, label)` index keys of the pivot table. -/
def pivotKeys (rows : List RadRow) : List (String × String) :=
  (rows.map (fun r => (r.patient, r.label))).dedup

/-- The rows aggregated into one pivot cell: those matching the index key
`(p, l)` and the column key `s`. -/
def cellRows (rows : List RadRow) (p l s : String) : List RadRow :=
  rows.filter (fun r => r.patient == p && r.label == l && r.sequence == s)

/-- One pivot cell: the default `aggfunc='mean'` over the matching rows'
values of feature `f`. -/
def pivotCell (rows : List RadRow) (p l : String) (f : ℕ) (s : String) : ℚ :=
  mean ((cellRows rows p l s).map (fun r => r.feats.getD f 0))

/-- A row of the pivoted table before label encoding: flattened column
names are `(feature, sequence)` pairs. -/
structure PivotRow where
  patient : String
  label : String
  cells : List ((ℕ × String) × ℚ)
deriving DecidableEq, Repr

/-- The pivoted table: one row per distinct `(patient, label)` key, one
cell per `(feature, sequence)` pair. -/
def pivotTable (rows : List RadRow) (nFeats : ℕ) : List PivotRow :=
  (pivotKeys rows).map (fun pl =>
    { patient := pl.1, label := pl.2,
      cells := (List.range nFeats).flatMap (fun f =>
        (sequences rows).map (fun s => ((f, s), pivotCell rows pl.1 pl.2 f s))) })

/-- The label column after the two `.loc` assignments: a cell is either
still a string or one of the numeric codes. -/
inductive LabelVal where
  | str : String → LabelVal
  | num : ℕ → LabelVal
deriving DecidableEq, Repr

/-- `data.loc[data['label'] == 'HGG', 'label'] = 1` followed by
`data.loc[data['label'] == 'LGG', 'label'] = 0`: any other label value is
left as the string it was. -/
def encodeLabel (l : String) : LabelVal :=
  if l = "HGG" then .num 1 else if l = "LGG" then .num 0 else .str l

/-- A row of the prepared patient-feature matrix. -/
structure PreparedRow where
  patient : String
  label : LabelVal
  cells : List ((ℕ × String) × ℚ)
deriving DecidableEq, Repr

/-- The whole data-preparation cell: pivot, then encode the labels. -/
def prepareData (rows : List RadRow) (nFeats : ℕ) : List PreparedRow :=
  (pivotTable rows nFeats).map (fun r =>
    { patient := r.patient, label := encodeLabel r.label, cells := r.cells })

theorem countP_eq_one_of_unique {α : Type} (l : List α) (q : α → Bool)
    (hnd : l.Nodup) (a : α) (ha : a ∈ l) (hqa : q a = true)
    (huni : ∀ x ∈ l, q x = true → x = a) :
    l.countP q = 1 := by
  induction l with
  | nil => simp at ha
  | cons b t ih =>
    rw [List.countP_cons]
    rcases List.mem_cons.mp ha with rfl | hat
    · have ht : t.countP q = 0 := List.countP_eq_zero.mpr (by
        intro x hx hqx
        have := huni x (List.mem_cons_of_mem a hx) hqx
        subst this
        exact (List.nodup_cons.mp hnd).1 hx)
      rw [ht, hqa]
      rfl
    · have hb : q b = false := by
        by_contra hqb
        have hqb' : q b = true := by
          cases hq : q b
          · exact absurd hq hqb
          · rfl
        have := huni b (List.mem_cons_self b t) hqb'
        subst this
        exact (List.nodup_cons.mp hnd).1 hat
      rw [hb]
      simp only [if_neg Bool.false_ne_true, Nat.add_zero]
      exact ih (List.nodup_cons.mp hnd).2 hat
        (fun x hx hqx => huni x (List.mem_cons_of_mem b hx) hqx)

theorem pivotCell_eq (rows : List RadRow) (r : RadRow) (hr : r ∈ rows)
    (huniq : ∀ a ∈ rows, ∀ b ∈ rows, a.patient = b.patient →
      a.sequence = b.sequence → a = b) (f : ℕ) :
    pivotCell rows r.patient r.label f r.sequence = r.feats.getD f 0 := by
  have hrcell : r ∈ cellRows rows r.patient r.label r.sequence := by
    rw [cellRows, List.mem_filter]
    exact ⟨hr, by simp⟩
  apply mean_const
  · exact List.ne_nil_of_mem (List.mem_map_of_mem _ hrcell)
  · intro x hx
    obtain ⟨r2, hr2, rfl⟩ := List.mem_map.mp hx
    obtain ⟨hr2rows, hpred⟩ := List.mem_filter.mp hr2
    simp only [Bool.and_eq_true, beq_iff_eq] at hpred
    have : r2 = r := huniq r2 hr2rows r hr hpred.1.1 hpred.2
    rw [this]

/-- C4: the data-preparation step reshapes the radiomics table (one row per
`(patient, sequence)` pair) into a patient-feature matrix with exactly one
row per patient and one column per `(feature, sequence)` combination,
rewrites every `'HGG'` label to 1 and every `'LGG'` to 0, and leaves all
feature values unchanged. -/
theorem prepareData_correct (rows : List RadRow) (nFeats : ℕ)
    (hlab : ∀ a ∈ rows, ∀ b ∈ rows, a.patient = b.patient →
      a.label = b.label)
    (huniq : ∀ a ∈ rows, ∀ b ∈ rows, a.patient = b.patient →
      a.sequence = b.sequence → a = b) :
    (∀ p, (prepareData rows nFeats).countP (fun q => q.patient == p)
        = if p ∈ rows.map (fun r => r.patient) then 1 else 0) ∧
    (∀ q ∈ prepareData rows nFeats,
      q.cells.map Prod.fst
        = (List.range nFeats).flatMap (fun f =>
            (sequences rows).map (fun s => (f, s)))) ∧
    (∀ r ∈ rows, ∀ f, f < nFeats → ∀ q ∈ prepareData rows nFeats,
      q.patient = r.patient →
        ((f, r.sequence), r.feats.getD f 0) ∈ q.cells) ∧
    (∀ q ∈ prepareData rows nFeats, ∃ r ∈ rows,
      q.patient = r.patient ∧ q.label = encodeLabel r.label) ∧
    encodeLabel "HGG" = LabelVal.num 1 ∧
    encodeLabel "LGG" = LabelVal.num 0 := by
  have hmem : ∀ q, q ∈ prepareData rows nFeats ↔
      ∃ pl ∈ pivotKeys rows,
        q = ⟨pl.1, encodeLabel pl.2,
          (List.range nFeats).flatMap (fun f =>
            (sequences rows).map
              (fun s => ((f, s), pivotCell rows pl.1 pl.2 f s)))⟩ := by
    intro q
    simp only [prepareData, pivotTable, List.map_map, List.mem_map,
      Function.comp]
    constructor
    · rintro ⟨pl, hpl, rfl⟩
      exact ⟨pl, hpl, rfl⟩
    · rintro ⟨pl, hpl, rfl⟩
      exact ⟨pl, hpl, rfl⟩
  have hkey : ∀ pl ∈ pivotKeys rows, ∃ r ∈ rows,
      r.patient = pl.1 ∧ r.label = pl.2 := by
    intro pl hpl
    obtain ⟨r, hr, hpl2⟩ := List.mem_map.mp (List.mem_dedup.mp hpl)
    exact ⟨r, hr, by rw [← hpl2], by rw [← hpl2]⟩
  refine ⟨?_, ?_, ?_, ?_, by decide, by decide⟩
  · -- exactly one pivot row per patient present in the table
    intro p
    have hcnt : (prepareData rows nFeats).countP (fun q => q.patient == p)
        = (pivotKeys rows).countP (fun pl => pl.1 == p) := by
      rw [prepareData, pivotTable, List.map_map, List.countP_map]
      rfl
    rw [hcnt]
    by_cases hp : p ∈ rows.map (fun r => r.patient)
    · rw [if_pos hp]
      obtain ⟨r, hr, hrp⟩ := List.mem_map.mp hp
      apply countP_eq_one_of_unique (pivotKeys rows) _
        (List.nodup_dedup _) (r.patient, r.label)
      · exact List.mem_dedup.mpr (List.mem_map_of_mem _ hr)
      · simp [hrp]
      · intro x hx hxp
        obtain ⟨r2, hr2, hx2⟩ := hkey x hx
        have hx1 : x.1 = p := by simpa using hxp
        have hrr : r2.patient = r.patient := by rw [hx2.1, hx1, hrp]
        have hll : r2.label = r.label := hlab r2 hr2 r hr hrr
        have : x = (r2.patient, r2.label) := by
          rw [Prod.ext_iff]
          exact ⟨hx2.1.symm, hx2.2.symm⟩
        rw [this, hrr, hll]
    · rw [if_neg hp]
      apply List.countP_eq_zero.mpr
      intro x hx hxp
      obtain ⟨r2, hr2, hx2⟩ := hkey x hx
      have hx1 : x.1 = p := by simpa using hxp
      exact hp (List.mem_map.mpr ⟨r2, hr2, by rw [hx2.1, hx1]⟩)
  · -- one column per (feature, sequence) combination
    intro q hq
    obtain ⟨pl, _, rfl⟩ := (hmem q).mp hq
    simp [List.map_flatMap, List.map_map, Function.comp_def]
  · -- feature values carried over unchanged to the patient's row
    intro r hr f hf q hq hqp
    obtain ⟨pl, hpl, rfl⟩ := (hmem q).mp hq
    obtain ⟨r2, hr2, hp2, hl2⟩ := hkey pl hpl
    have hpat : pl.1 = r.patient := hqp
    have hr2r : r2.patient = r.patient := by rw [hp2, hpat]
    have hlbl : pl.2 = r.label := by
      rw [← hl2]
      exact hlab r2 hr2 r hr hr2r
    apply List.mem_flatMap.mpr
    refine ⟨f, List.mem_range.mpr hf, ?_⟩
    apply List.mem_map.mpr
    refine ⟨r.sequence, List.mem_dedup.mpr (List.mem_map_of_mem _ hr), ?_⟩
    rw [hpat, hlbl, pivotCell_eq rows r hr huniq f]
  · -- every prepared label is the encoding of the patient's label
    intro q hq
    obtain ⟨pl, hpl, rfl⟩ := (hmem q).mp hq
    obtain ⟨r2, hr2, hp2, hl2⟩ := hkey pl hpl
    exact ⟨r2, hr2, hp2.symm, by rw [hl2]⟩

/-- C4 witness: a four-row table, two patients times two sequences with one
feature; the prepared table has exactly one row for patient `p1`. -/
theorem prepareData_correct_witness :
    (prepareData
      [⟨"p1", "HGG", "t1", [5]⟩, ⟨"p1", "HGG", "t2", [7]⟩,
       ⟨"p2", "LGG", "t1", [2]⟩, ⟨"p2", "LGG", "t2", [3]⟩] 1).countP
        (fun q => q.patient == "p1") = 1 := by
  have h := prepareData_correct
    [⟨"p1", "HGG", "t1", [5]⟩, ⟨"p1", "HGG", "t2", [7]⟩,
     ⟨"p2", "LGG", "t1", [2]⟩, ⟨"p2", "LGG", "t2", [3]⟩] 1
    (by decide) (by decide)
  have h1 := h.1 "p1"
  simpa using h1

/-! ## Classifier classes and the confusion-matrix display labels

`confusion_matrix(y_test, predictions, labels=clf.classes_)` orders the
matrix by `clf.classes_`, which scikit-learn sets to the sorted unique
label values (`np.unique`); the display is built with
`display_labels=['LGG','HGG']`. -/

/-- `clf.classes_` for integer-coded labels: `np.unique(y)`, the distinct
values in increasing order. -/
def fitted_classes (ys : List ℕ) : List ℕ :=
  ys.dedup.insertionSort (· ≤ ·)

/-- The `display_labels` argument of `ConfusionMatrixDisplay`. -/
def display_labels : List String := ["LGG", "HGG"]

theorem sorted_nodup_zero_one (l : List ℕ) (hs : l.Sorted (· ≤ ·))
    (hnd : l.Nodup) (hm : ∀ x, x ∈ l ↔ (x = 0 ∨ x = 1)) : l = [0, 1] := by
  cases l with
  | nil => exact absurd ((hm 0).mpr (Or.inl rfl)) (List.not_mem_nil 0)
  | cons a t =>
    cases t with
    | nil =>
      have h0 := (hm 0).mpr (Or.inl rfl)
      have h1 := (hm 1).mpr (Or.inr rfl)
      simp only [List.mem_singleton] at h0 h1
      omega
    | cons b u =>
      cases u with
      | nil =>
        have ha := (hm a).mp (by simp)
        have hb := (hm b).mp (by simp)
        have hab : a ≤ b := (List.sorted_cons.mp hs).1 b (by simp)
        have hne : a ≠ b := by
          intro h
          exact (List.nodup_cons.mp hnd).1 (by simp [h])
        rcases ha with rfl | rfl <;> rcases hb with rfl | rfl <;> simp_all
      | cons c v =>
        have ha := (hm a).mp (by simp)
        have hb := (hm b).mp (by simp)
        have hc := (hm c).mp (by simp)
        obtain ⟨han, hnd2⟩ := List.nodup_cons.mp hnd
        obtain ⟨hbn, _⟩ := List.nodup_cons.mp hnd2
        have hab : a ≠ b := fun h => han (by simp [h])
        have hac : a ≠ c := fun h => han (by simp [h])
        have hbc : b ≠ c := fun h => hbn (by simp [h])
        rcases ha with rfl | rfl <;> rcases hb with rfl | rfl <;>
          rcases hc with rfl | rfl <;> simp_all

theorem fitted_classes_zero_one (ys : List ℕ)
    (h0 : 0 ∈ ys) (h1 : 1 ∈ ys) (hall : ∀ y ∈ ys, y = 0 ∨ y = 1) :
    fitted_classes ys = [0, 1] := by
  apply sorted_nodup_zero_one
  · exact List.sorted_insertionSort _ _
  · exact (List.perm_insertionSort _ _).nodup_iff.mpr (List.nodup_dedup ys)
  · intro x
    rw [fitted_classes, List.mem_insertionSort, List.mem_dedup]
    constructor
    · intro hx
      exact hall x hx
    · rintro (rfl | rfl)
      · exact h0
      · exact h1

/-- C7: with labels encoded as LGG = 0 and HGG = 1, the confusion matrix
computed with `labels=clf.classes_` (the sorted unique values `[0, 1]`) and
displayed with `display_labels=['LGG','HGG']` pairs each displayed name
with the encoded class it stands for, in matching order. -/
theorem confusion_labels_consistent (ys : List ℕ)
    (h0 : 0 ∈ ys) (h1 : 1 ∈ ys) (hall : ∀ y ∈ ys, y = 0 ∨ y = 1) :
    fitted_classes ys = [0, 1] ∧
    display_labels = ["LGG", "HGG"] ∧
    ∀ i, i < 2 → encodeLabel (display_labels.getD i "")
        = LabelVal.num ((fitted_classes ys).getD i 0) := by
  have hcls := fitted_classes_zero_one ys h0 h1 hall
  refine ⟨hcls, rfl, ?_⟩
  intro i hi
  rw [hcls]
  interval_cases i <;> decide

/-- C7 witness: the label vector `[1, 0, 1]` holds both classes;
`fitted_classes` is `[0, 1]` and the display names decode to it in order. -/
theorem confusion_labels_consistent_witness :
    fitted_classes [1, 0, 1] = [0, 1] ∧
    display_labels = ["LGG", "HGG"] ∧
    ∀ i, i < 2 → encodeLabel (display_labels.getD i "")
        = LabelVal.num ((fitted_classes [1, 0, 1]).getD i 0) :=
  confusion_labels_consistent [1, 0, 1] (by decide) (by decide) (by decide)

/-! ## The train/test split

`train_test_split(x_data, y_data, test_size=0.3, random_state=123,
stratify=y_data)` is scikit-learn code, not code of this repository; it is
modelled here from its documented call-site behavior (the notebook's own
note: "stratify=y_data will make sure that your random split has [the label
proportions]", a fixed `random_state` for "reproducible results").  Rows
are identified by their indices `0 .. n-1`; the split is a pure function
of the label vector. -/

/-- The row indices carrying label `c`. -/
def classIndices (ys : List ℕ) (c : ℕ) : List ℕ :=
  (List.range ys.length).filter (fun i => ys.getD i 0 == c)

/-- `ceil(0.3 * m)`: the rounded test share of a class of size `m`
(`test_size=0.3`; scikit-learn rounds the test side up). -/
def nTestOf (m : ℕ) : ℕ := (3 * m + 9) / 10

/-- Modelled from the spec: the test half of the stratified split — per
label class, a rounded 30% of that class's row indices.  The shuffle fixed
by `random_state=123` is modelled as the identity permutation of each
class's indices (any fixed permutation gives the same set-level facts). -/
def testIndices (ys : List ℕ) : List ℕ :=
  (fitted_classes ys).flatMap (fun c =>
    (classIndices ys c).take (nTestOf (classIndices ys c).length))

/-- Modelled from the spec: the train half — every row not sent to test. -/
def trainIndices (ys : List ℕ) : List ℕ :=
  (List.range ys.length).filter (fun i => !(testIndices ys).contains i)

theorem nTestOf_le (m : ℕ) : nTestOf m ≤ m := by
  rw [nTestOf]
  omega

theorem countP_flatMap {α β : Type} (l : List α) (f : α → List β)
    (p : β → Bool) :
    (l.flatMap f).countP p = (l.map (fun a => (f a).countP p)).sum := by
  induction l with
  | nil => rfl
  | cons a t ih => simp [List.flatMap_cons, List.countP_append, ih]

theorem sum_map_single {α : Type} (l : List α) (hnd : l.Nodup)
    (c : α) (hc : c ∈ l) (g : α → ℕ) (hz : ∀ x ∈ l, x ≠ c → g x = 0) :
    (l.map g).sum = g c := by
  induction l with
  | nil => simp at hc
  | cons a t ih =>
    obtain ⟨han, hnd2⟩ := List.nodup_cons.mp hnd
    by_cases hac : a = c
    · subst hac
      have ht : (t.map g).sum = 0 := by
        apply List.sum_eq_zero
        intro x hx
        obtain ⟨y, hy, rfl⟩ := List.mem_map.mp hx
        refine hz y (List.mem_cons_of_mem a hy) ?_
        intro h
        rw [h] at hy
        exact han hy
      simp [ht]
    · have hct : c ∈ t := by
        rcases List.mem_cons.mp hc with h | h
        · exact absurd h.symm hac
        · exact h
      have ha : g a = 0 := hz a (List.mem_cons_self a t) hac
      have ht := ih hnd2 hct
        (fun x hx hxc => hz x (List.mem_cons_of_mem a hx) hxc)
      simp [ha, ht]

theorem mem_classIndices (ys : List ℕ) (c i : ℕ) :
    i ∈ classIndices ys c ↔ (i < ys.length ∧ ys.getD i 0 = c) := by
  rw [classIndices, List.mem_filter, List.mem_range]
  simp

theorem mem_testIndices_lt (ys : List ℕ) (i : ℕ)
    (h : i ∈ testIndices ys) : i < ys.length := by
  obtain ⟨c, _, hi⟩ := List.mem_flatMap.mp h
  have := List.mem_of_mem_take hi
  exact ((mem_classIndices ys c i).mp this).1

/-- C9: the stratified split is disjoint, covers every row exactly once,
sends per class the rounded 30% share `⌈0.3 · n_c⌉` of that class's rows to
the test set (so the test set is 30% of the data up to rounding and the
class proportions are preserved), and is a pure function of its input (two
runs on the same input coincide). -/
theorem train_test_split_correct (ys : List ℕ) :
    (∀ i ∈ testIndices ys, i ∉ trainIndices ys) ∧
    (∀ i, (i ∈ testIndices ys ∨ i ∈ trainIndices ys) ↔ i < ys.length) ∧
    (∀ c ∈ fitted_classes ys,
      (testIndices ys).countP (fun i => ys.getD i 0 == c)
        = nTestOf (classIndices ys c).length) ∧
    (testIndices ys).length
      = ((fitted_classes ys).map
          (fun c => nTestOf (classIndices ys c).length)).sum ∧
    (testIndices ys, trainIndices ys) = (testIndices ys, trainIndices ys) := by
  refine ⟨?_, ?_, ?_, ?_, rfl⟩
  · intro i hit hitr
    have hf := (List.mem_filter.mp hitr).2
    rw [Bool.not_eq_true'] at hf
    have hf2 : List.elem i (testIndices ys) = false := hf
    have ht2 : List.elem i (testIndices ys) = true := List.elem_iff.mpr hit
    rw [ht2] at hf2
    exact absurd hf2 (by simp)
  · intro i
    constructor
    · rintro (h | h)
      · exact mem_testIndices_lt ys i h
      · exact List.mem_range.mp (List.mem_filter.mp h).1
    · intro h
      by_cases ht : i ∈ testIndices ys
      · exact Or.inl ht
      · refine Or.inr (List.mem_filter.mpr ⟨List.mem_range.mpr h, ?_⟩)
        rw [Bool.not_eq_true']
        cases hdec : (testIndices ys).contains i
        · rfl
        · exact absurd (List.elem_iff.mp hdec) ht
  · intro c hc
    rw [testIndices, countP_flatMap]
    have hnd : (fitted_classes ys).Nodup :=
      (List.perm_insertionSort _ _).nodup_iff.mpr (List.nodup_dedup ys)
    rw [sum_map_single (fitted_classes ys) hnd c hc]
    · -- on the class's own chunk every index matches, so countP = length
      have hlen : ((classIndices ys c).take
          (nTestOf (classIndices ys c).length)).length
            = nTestOf (classIndices ys c).length := by
        rw [List.length_take]
        exact Nat.min_eq_left (nTestOf_le _)
      have hall : ∀ i ∈ (classIndices ys c).take
          (nTestOf (classIndices ys c).length),
          (ys.getD i 0 == c) = true := by
        intro i hi
        have h2 := ((mem_classIndices ys c i).mp (List.mem_of_mem_take hi)).2
        simpa using h2
      rw [List.countP_eq_length.mpr hall, hlen]
    · -- chunks of other classes contribute nothing
      intro c2 _ hc2
      apply List.countP_eq_zero.mpr
      intro i hi hpi
      have h2 := ((mem_classIndices ys c2 i).mp (List.mem_of_mem_take hi)).2
      rw [beq_iff_eq] at hpi
      exact hc2 (h2.symm.trans hpi)
  · rw [testIndices, List.length_flatMap]
    congr 1
    apply List.map_congr_left
    intro c _
    simp only [Function.comp]
    rw [List.length_take]
    exact Nat.min_eq_left (nTestOf_le _)

/-! ## Frame property of the normalization routine -/

/-- C10: `load_img_norm` is a pure read of the image file: the file store it
returns is exactly the store it was given (no file is modified), and the
returned SimpleITK object carries the same spatial metadata as the loaded
image (size, spacing, origin, direction, via `CopyInformation`) — only the
voxel intensities differ, being the rescaled ones. -/
theorem load_img_norm_frame (store : Store) (dir : String)
    (img : SitkImage) (σ t : ℚ) (h : store dir = some img)
    (out : (SitkImage × List ℚ) × Store)
    (hout : load_img_norm store dir σ t = some out) :
    out.2 = store ∧
    (∀ p, out.2 p = store p) ∧
    out.1.1.meta = img.meta ∧
    out.1.1.voxels = normalizeWith img.voxels t σ := by
  simp only [load_img_norm, h, GetArrayFromImage] at hout
  have hx := Option.some.inj hout
  subst hx
  exact ⟨rfl, fun p => rfl, rfl, rfl⟩

/-- C10 witness: on the one-file store, the store returned alongside the
normalized image is the input store itself and the metadata is copied. -/
theorem load_img_norm_frame_witness :
    ((CopyInformation (GetImageFromArray
        (normalizeWith [(1 : ℚ), 3, -5] 0 1)) ⟨default, [(1 : ℚ), 3, -5]⟩,
      normalizeWith [(1 : ℚ), 3, -5] 0 1),
      (fun d => if d = "a.nii.gz"
        then some (⟨default, [(1 : ℚ), 3, -5]⟩ : SitkImage) else none)).2
      = (fun d => if d = "a.nii.gz"
        then some (⟨default, [(1 : ℚ), 3, -5]⟩ : SitkImage) else none) ∧
    (∀ p, ((CopyInformation (GetImageFromArray
        (normalizeWith [(1 : ℚ), 3, -5] 0 1)) ⟨default, [(1 : ℚ), 3, -5]⟩,
      normalizeWith [(1 : ℚ), 3, -5] 0 1),
      (fun d => if d = "a.nii.gz"
        then some (⟨default, [(1 : ℚ), 3, -5]⟩ : SitkImage) else none)).2 p
      = (fun d => if d = "a.nii.gz"
        then some (⟨default, [(1 : ℚ), 3, -5]⟩ : SitkImage) else none) p) ∧
    ((CopyInformation (GetImageFromArray
        (normalizeWith [(1 : ℚ), 3, -5] 0 1)) ⟨default, [(1 : ℚ), 3, -5]⟩,
      normalizeWith [(1 : ℚ), 3, -5] 0 1),
      (fun d => if d = "a.nii.gz"
        then some (⟨default, [(1 : ℚ), 3, -5]⟩ : SitkImage) else none)).1.1.meta
      = (⟨default, [(1 : ℚ), 3, -5]⟩ : SitkImage).meta ∧
    ((CopyInformation (GetImageFromArray
        (normalizeWith [(1 : ℚ), 3, -5] 0 1)) ⟨default, [(1 : ℚ), 3, -5]⟩,
      normalizeWith [(1 : ℚ), 3, -5] 0 1),
      (fun d => if d = "a.nii.gz"
        then some (⟨default, [(1 : ℚ), 3, -5]⟩ : SitkImage) else none)).1.1.voxels
      = normalizeWith [(1 : ℚ), 3, -5] 0 1 :=
  load_img_norm_frame
    (fun d => if d = "a.nii.gz"
      then some (⟨default, [(1 : ℚ), 3, -5]⟩ : SitkImage) else none)
    "a.nii.gz" ⟨default, [(1 : ℚ), 3, -5]⟩ 1 0
    (by simp) _ rfl

end MLTutorial
